import Mathlib

/-!
Shallow embedding of the rule-mining-and-classification engine of
`src/CloudArticle/vladimir/vladimir/code/script_v3.py`.

Labels and tokens are strings.  Python dictionaries keyed by labels are
modelled by a list of labels together with a signature function; Python
sets are modelled by lists (set-iteration order becomes list order, which
the original code leaves arbitrary).  Fallible code (assertions, division
by zero, `exit()`) is modelled with `Except` / `Option`.
-/

namespace SoftDisc

/-- A corpus: the labels present (keys of `label_to_tokens`) and each
label's token set `label_to_tokens[label]`, modelled as a list. -/
structure Corpus where
  labels : List String
  sig : String → List String

/-- Map `token_to_labels[t]`: the labels whose signature contains `t`
(function `get_token_to_labels`, lines 38-48). -/
def tokenToLabels (c : Corpus) (t : String) : List String :=
  c.labels.filter (fun l => decide (t ∈ c.sig l))

/-- The uniqueness index of a token: `len(token_to_labels[token])`. -/
def uniq (c : Corpus) (t : String) : Nat :=
  (tokenToLabels c t).length

/-- Group `label_to_token_groups[label][index]` (function
`get_label_to_token_groups`, lines 51-66): the tokens of `label`'s
signature whose uniqueness index is `index`. -/
def tokenGroup (c : Corpus) (l : String) (i : Nat) : List String :=
  (c.sig l).filter (fun t => uniq c t == i)

/-- Python set equality `label_to_tokens[l] == label_to_tokens[o]`. -/
def sig_eq (c : Corpus) (l o : String) : Prop :=
  (∀ t ∈ c.sig l, t ∈ c.sig o) ∧ (∀ t ∈ c.sig o, t ∈ c.sig l)

instance (c : Corpus) (l o : String) : Decidable (sig_eq c l o) := by
  unfold sig_eq; infer_instance

/-- Set `plus_diff = label_to_tokens[label] - label_to_tokens[other_label]`
(line 133). -/
def plusDiff (c : Corpus) (l o : String) : List String :=
  (c.sig l).filter (fun t => decide (t ∉ c.sig o))

/-- Set `minus_diff = label_to_tokens[other_label] - label_to_tokens[label]`
(line 134). -/
def minusDiff (c : Corpus) (l o : String) : List String :=
  (c.sig o).filter (fun t => decide (t ∉ c.sig l))

/-- A rule triplet (lines 129, 139, 141): `(token, 'unique to', index)`,
`(token, 'inside vs', other_label)` or `(token, 'outside vs', other_label)`. -/
inductive Triplet where
  | uniqueTo (token : String) (index : Nat)
  | insideVs (token : String) (other : String)
  | outsideVs (token : String) (other : String)
deriving Repr, DecidableEq

/-- The token component `triplet[0]`. -/
def tripletToken : Triplet → String
  | .uniqueTo t _ => t
  | .insideVs t _ => t
  | .outsideVs t _ => t

/-- The discriminated other label, `none` for the anchor triplet. -/
def tripletTarget : Triplet → Option String
  | .uniqueTo _ _ => none
  | .insideVs _ o => some o
  | .outsideVs _ o => some o

/-- Whether `triplet[1] == 'outside vs'` (line 259). -/
def isOutside : Triplet → Bool
  | .outsideVs _ _ => true
  | _ => false

/-- Whether a triplet is a discriminator (format (1) or (2) of the
docstring of `get_rules_per_label`), rather than the `unique to` anchor. -/
def isDiscriminator : Triplet → Bool
  | .uniqueTo _ _ => false
  | _ => true

/-- Inner loop of `get_rules_per_label` (lines 130-143): walk the other
labels of `token_to_labels[token]`, appending one discriminating triplet
per other label.  The `assert (len(plus_diff) + len(minus_diff)) > 0` of
line 135 becomes `Except.error`; the `break` of line 143 stops and keeps
the triplets gathered so far (the caller then drops the short rule).
Note that, exactly as in the source, `used` is the set of tokens used by
previously accepted rules only: tokens chosen for earlier triplets of the
same candidate are not excluded. -/
def addDiscriminators (c : Corpus) (label : String) (used : List String) :
    List String → Except Unit (List Triplet)
  | [] => Except.ok []
  | other :: rest =>
    if (plusDiff c label other).length + (minusDiff c label other).length = 0 then
      Except.error ()
    else
      match ((plusDiff c label other).filter (fun t => decide (t ∉ used))).head? with
      | some t =>
        match addDiscriminators c label used rest with
        | Except.error e => Except.error e
        | Except.ok trips => Except.ok (Triplet.insideVs t other :: trips)
      | none =>
        match ((minusDiff c label other).filter (fun t => decide (t ∉ used))).head? with
        | some t =>
          match addDiscriminators c label used rest with
          | Except.error e => Except.error e
          | Except.ok trips => Except.ok (Triplet.outsideVs t other :: trips)
        | none => Except.ok []

/-- Mining state: rules accepted so far, tokens used by them, and whether
the early `return rules` of line 150 has fired. -/
structure MineState where
  rules : List (List Triplet)
  used : List String
  done : Bool
deriving Repr

/-- Token loop of `get_rules_per_label` (lines 125-150) for one index
bucket. -/
def mineTokens (c : Corpus) (label : String) (limit index : Nat) :
    List String → MineState → Except Unit MineState
  | [], st => Except.ok st
  | token :: rest, st =>
    if token ∈ st.used then mineTokens c label limit index rest st
    else
      match addDiscriminators c label st.used
          ((tokenToLabels c token).filter (fun o => o != label)) with
      | Except.error e => Except.error e
      | Except.ok trips =>
        if (Triplet.uniqueTo token index :: trips).length < index then
          mineTokens c label limit index rest st
        else
          if limit ≤ (st.rules ++ [Triplet.uniqueTo token index :: trips]).length then
            Except.ok ⟨st.rules ++ [Triplet.uniqueTo token index :: trips],
              st.used ++ (Triplet.uniqueTo token index :: trips).map tripletToken,
              true⟩
          else
            mineTokens c label limit index rest
              ⟨st.rules ++ [Triplet.uniqueTo token index :: trips],
                st.used ++ (Triplet.uniqueTo token index :: trips).map tripletToken,
                false⟩

/-- Index loop of `get_rules_per_label` (lines 122-151).  The Python code
iterates the sorted keys of `label_to_token_groups[label]`; here every
index from `0` to the number of labels is visited in ascending order,
indices with an empty bucket contributing nothing (uniqueness indices
never exceed the number of labels, so the processed buckets coincide).
`max_index > 0` bounds the indices, `st.done` models the early return. -/
def mineIndices (c : Corpus) (label : String) (limit max_index : Nat) :
    List Nat → MineState → Except Unit MineState
  | [], st => Except.ok st
  | index :: rest, st =>
    if st.done then Except.ok st
    else if 0 < max_index ∧ max_index < index then Except.ok st
    else
      match mineTokens c label limit index (tokenGroup c label index) st with
      | Except.error e => Except.error e
      | Except.ok st2 => mineIndices c label limit max_index rest st2

/-- Function `get_rules_per_label(label, ..., limit, max_index)` (lines 91-151).
The entry assertion `assert (label in label_to_token_groups)` (line 119)
fails exactly when the label's signature is empty. -/
def get_rules_per_label (c : Corpus) (label : String) (limit max_index : Nat) :
    Except Unit (List (List Triplet)) :=
  if (c.sig label).length = 0 then Except.error ()
  else
    match mineIndices c label limit max_index
        (List.range (c.labels.length + 1)) ⟨[], [], false⟩ with
    | Except.error e => Except.error e
    | Except.ok st => Except.ok st.rules

/-- Expression `sorted(label_to_token_groups[label].keys())[0]` (line 79): the
smallest uniqueness index appearing in the label's signature. -/
def firstIndex (c : Corpus) (l : String) : Nat :=
  match (c.sig l).map (fun t => uniq c t) with
  | [] => 0
  | i :: is => is.foldl Nat.min i

/-- Expression `list(label_to_token_groups[label][first_index])[0]` (line 80): a
token of the lowest-index group, `none` when the signature is empty (in
which case the Python code raises a `KeyError` at line 79). -/
def firstToken (c : Corpus) (l : String) : Option String :=
  ((c.sig l).filter (fun t => uniq c t == firstIndex c l)).head?

/-- Inner loop of `get_duplicates` (lines 82-87): scan the candidate pool,
marking every strictly larger, not-yet-marked label with an identical
signature. -/
def dupInner (c : Corpus) (label : String) (dups : List String)
    (pot : List String) : List String :=
  pot.foldl
    (fun ds other =>
      if other ≤ label ∨ other ∈ ds then ds
      else if sig_eq c label other then ds ++ [other] else ds)
    dups

/-- Body of the outer loop of `get_duplicates` (lines 76-87) for one
label: skip it when already marked, otherwise scan the candidate pool
`sorted(list(token_to_labels[first_token]))`. -/
def dupStep (c : Corpus) (dups : List String) (label : String) : List String :=
  if label ∈ dups then dups
  else
    match firstToken c label with
    | none => dups
    | some t => dupInner c label dups ((tokenToLabels c t).insertionSort (· ≤ ·))

/-- Function `get_duplicates` (lines 69-88): walk the labels in sorted order,
skipping the ones already marked, and mark the duplicates of each
remaining label among the labels sharing its first token. -/
def get_duplicates (c : Corpus) : List String :=
  (c.labels.insertionSort (· ≤ ·)).foldl (dupStep c) []

/-- Characterization of the labels marked as duplicates after processing
the labels of `P`: the labels with a strictly smaller `sig_eq`-partner in
`P`. -/
def dupSpec (c : Corpus) (P : List String) (M : String) : Prop :=
  ∃ L ∈ P, L < M ∧ sig_eq c L M ∧ M ∈ c.labels

/-- The Python character slice `v[-n:]` (line 260): the whole string when
`n = 0` (since `-0 == 0`), otherwise the last `n` characters.  Strings are
sliced through their character lists. -/
def tail_slice (v : List Char) (n : Nat) : List Char :=
  if n = 0 then v else v.drop (v.length - n)

/-- The membership test of line 260: `token == v[-len(token):]`. -/
def token_matches (token v : String) : Bool :=
  token.data == tail_slice v.data token.data.length

/-- Condition of line 260 that breaks a rule on a triplet:
`inside == (len([v for v in changes if token == v[-len(token):]]) == 0)`
with `inside = (triplet[1] != 'outside vs')` (line 259). -/
def triplet_breaks (changes : List String) (tr : Triplet) : Bool :=
  (!isOutside tr) ==
    (((changes.filter (fun v => token_matches (tripletToken tr) v)).length) == 0)

/-- The per-rule triplet loop of `if_label` (lines 256-266): the first
breaking triplet fails the whole rule. -/
def rule_correct (changes : List String) : List Triplet → Bool
  | [] => true
  | tr :: rest =>
    if triplet_breaks changes tr then false else rule_correct changes rest

/-- Function `if_label` (lines 251-273), logging stripped: counts the correct rules
and compares `success / num_rules` with the threshold.  The Python float
division is modelled over `ℚ`; with zero rules the Python code raises
`ZeroDivisionError`, modelled as `none`. -/
def if_label (label_rules : List (List Triplet)) (changes : List String)
    (threshold : ℚ) : Option Bool :=
  if label_rules.length = 0 then none
  else
    some (decide (threshold ≤
      mkRat (label_rules.countP (fun r => rule_correct changes r))
        label_rules.length))

/-- The prediction step of `check_rules_on_anthony_data` (lines 303-314)
for one sample.  `random.choice(seq)` is modelled as `seq[r % len(seq)]`
for an explicit random draw `r`; the `exit()` on an empty rule list
(lines 306-308) is modelled as `none`. -/
def choose_predicted (labels : List String)
    (rules : String → List (List Triplet)) (changes : List String)
    (threshold : ℚ) (r : Nat) : Option String :=
  if labels.all (fun l => decide ((rules l).length ≠ 0)) then
    let predicted := labels.filter
      (fun l => (if_label (rules l) changes threshold).getD false)
    if 0 < predicted.length then predicted.get? (r % predicted.length)
    else labels.get? (r % labels.length)
  else none

/-- One per-label row of the metric block of `check_rules_on_anthony_data`
(lines 327-346).  The `print(... 'zero ... !!!')` warnings become the
three Boolean fields. -/
structure MetricsRow where
  precision : ℚ
  recall_q : ℚ
  f1 : ℚ
  zero_precision_warn : Bool
  zero_recall_warn : Bool
  zero_f1_warn : Bool
deriving Repr, DecidableEq

/-- Metric computation of lines 327-346 from the confusion counts of one
label. -/
def metrics_row (tp fp fn : Nat) : MetricsRow :=
  let precision : ℚ :=
    if tp + fp = 0 then 0 else (tp : ℚ) / ((tp : ℚ) + (fp : ℚ))
  let recall_q : ℚ :=
    if tp + fn = 0 then 0 else (tp : ℚ) / ((tp : ℚ) + (fn : ℚ))
  let f1 : ℚ :=
    if precision + recall_q = 0 then 0
    else 2 * precision * recall_q / (precision + recall_q)
  ⟨precision, recall_q, f1,
    decide (tp + fp = 0), decide (tp + fn = 0), decide (precision + recall_q = 0)⟩

/-- The seven break conditions of `transform_anthony_intersection`
(lines 227-240), checked before a token (with occurrence count `cnt`) is
added to a signature that currently has `size` tokens, with `mv` the
maximal occurrence count of the label.
The float comparison `res[label][token] < f * maxval` (exact over the
rationals, e.g. `cnt < (94/100) * mv`) is written cross-multiplied over
`Nat`, e.g. `100 * cnt < 94 * mv`; the lemma `ladder_stop_iff_rat` below
proves the two forms equivalent. -/
def ladder_stop (cnt mv size : Nat) : Bool :=
  (decide (cnt ≠ mv) && decide (50 < size)) ||
  (decide (100 * cnt < 94 * mv) && decide (40 ≤ size)) ||
  (decide (100 * cnt < 88 * mv) && decide (26 ≤ size)) ||
  (decide (10 * cnt < 8 * mv) && decide (16 ≤ size)) ||
  (decide (10 * cnt < 7 * mv) && decide (10 ≤ size)) ||
  (decide (10 * cnt < 6 * mv) && decide (8 ≤ size)) ||
  (decide (10 * cnt < 5 * mv) && decide (6 ≤ size))

/-- The token loop of lines 226-241: scan the tokens in order, breaking at
the first firing ladder condition, otherwise adding the token. -/
def ladder_scan (mv : Nat) : List (String × Nat) → List String → List String
  | [], acc => acc
  | (tok, cnt) :: rest, acc =>
    if ladder_stop cnt mv acc.length then acc
    else ladder_scan mv rest (acc ++ [tok])

/-- Ordering used by `sorted(res[label], key=res[label].get, reverse=True)`
(line 226): descending occurrence count. -/
def countGe (a b : String × Nat) : Prop := b.2 ≤ a.2

instance : DecidableRel countGe := fun a b => Nat.decLe b.2 a.2

instance : IsTotal (String × Nat) countGe :=
  ⟨fun a b => Nat.le_total b.2 a.2⟩

instance : IsTrans (String × Nat) countGe :=
  ⟨fun _ _ _ h1 h2 => Nat.le_trans h2 h1⟩

/-- Expression `max(res[label].values())` (line 225). -/
def maxval (counts : List (String × Nat)) : Nat :=
  (counts.map (fun p => p.2)).foldl Nat.max 0

/-- The per-label body of the second loop of
`transform_anthony_intersection` (lines 222-242): from the token
occurrence counts of one label (`res[label]`, an association list in
first-occurrence order), sort by descending count (Python's `sorted` is
stable; so is `List.insertionSort` with `countGe`) and scan with the
retention ladder. -/
def retain (counts : List (String × Nat)) : List String :=
  ladder_scan (maxval counts) (counts.insertionSort countGe) []

/-!  Definitions written from the words of the specification (not from the
source), used to compare spec and code where a claim asserts they agree. -/

/-- Modelled from the spec: presence of a rule token in a sample by suffix
match, "the sample's token set contains some element whose trailing
characters equal `t`". -/
def spec_present (changes : List String) (t : String) : Bool :=
  changes.any (fun v => decide (t.data <:+ v.data))

/-- Modelled from the spec: "UNIQUE_TO and INSIDE_VS triplets require
presence; OUTSIDE_VS requires absence". -/
def spec_triplet_pass (changes : List String) : Triplet → Bool
  | .uniqueTo t _ => spec_present changes t
  | .insideVs t _ => spec_present changes t
  | .outsideVs t _ => !spec_present changes t

/-- Modelled from the spec: a rule passes when all its triplets pass. -/
def spec_rule_pass (changes : List String) (r : List Triplet) : Bool :=
  r.all (spec_triplet_pass changes)

/-- Modelled from the spec (claim C9): the retention ladder with pair
`(1.00, 50)` read uniformly as "frequency below ratio × maxFreq and the
signature built so far has already reached minSize tokens". -/
def spec_ladder_stop (cnt mv size : Nat) : Bool :=
  (decide (cnt < mv) && decide (50 ≤ size)) ||
  (decide (100 * cnt < 94 * mv) && decide (40 ≤ size)) ||
  (decide (100 * cnt < 88 * mv) && decide (26 ≤ size)) ||
  (decide (10 * cnt < 8 * mv) && decide (16 ≤ size)) ||
  (decide (10 * cnt < 7 * mv) && decide (10 ≤ size)) ||
  (decide (10 * cnt < 6 * mv) && decide (8 ≤ size)) ||
  (decide (10 * cnt < 5 * mv) && decide (6 ≤ size))

/-- Modelled from the spec: the ladder scan with the spec's reading of the
first rung. -/
def spec_ladder_scan (mv : Nat) : List (String × Nat) → List String → List String
  | [], acc => acc
  | (tok, cnt) :: rest, acc =>
    if spec_ladder_stop cnt mv acc.length then acc
    else spec_ladder_scan mv rest (acc ++ [tok])

/-- Modelled from the spec: the signature retention stage as claim C9
states it. -/
def spec_retain (counts : List (String × Nat)) : List String :=
  spec_ladder_scan (maxval counts) (counts.insertionSort countGe) []

/-- Number of discriminator triplets of a rule whose target is `O`. -/
def countTarget (r : List Triplet) (O : String) : Nat :=
  r.countP (fun tr => tripletTarget tr == some O)

/-- Number of discriminator triplets of a rule carrying token `t`. -/
def countDiscToken (r : List Triplet) (t : String) : Nat :=
  r.countP (fun tr => isDiscriminator tr && (tripletToken tr == t))

/-- The stored anchor index of a rule (the `index` of its leading
`unique to` triplet). -/
def anchorIndex (r : List Triplet) : Nat :=
  match r with
  | Triplet.uniqueTo _ i :: _ => i
  | _ => 0

/-- Structural invariant of every rule accepted by `get_rules_per_label`
for `label`: it is a `unique to` anchor carrying the anchor's uniqueness
index, followed by discriminator triplets whose tokens come from the
corresponding signature differences. -/
def minedRule (c : Corpus) (label : String) (r : List Triplet) : Prop :=
  ∃ t trips, r = Triplet.uniqueTo t (uniq c t) :: trips ∧
    t ∈ c.sig label ∧
    r.length = uniq c t ∧
    (∀ O ∈ tokenToLabels c t, O ≠ label → countTarget r O = 1) ∧
    (∀ tr ∈ trips,
      (∃ u o, tr = Triplet.insideVs u o ∧ u ∈ c.sig label ∧ u ∉ c.sig o) ∨
      (∃ u o, tr = Triplet.outsideVs u o ∧ u ∈ c.sig o ∧ u ∉ c.sig label))

/-!  Concrete inputs used by witnesses and counterexamples. -/

/-- The concrete scenario of spec section 8:
`A = {x, y, z}`, `B = {x, y}`, `C = {z, w}`. -/
def specScenario : Corpus :=
  ⟨["A", "B", "C"], fun l =>
    if l = "A" then ["x", "y", "z"]
    else if l = "B" then ["x", "y"]
    else if l = "C" then ["z", "w"]
    else []⟩

/-- Corpus on which a mined rule reuses one token in two discriminator
triplets: mining `a` anchors at `t` (shared with `b` and `c`) and picks
`z` as the `inside vs` witness against both `b` and `c`, because the
in-progress candidate's tokens are not excluded. -/
def c2Corpus : Corpus :=
  ⟨["a", "b", "c", "d", "e"], fun l =>
    if l = "a" then ["t", "z"]
    else if l = "b" then ["t"]
    else if l = "c" then ["t"]
    else if l = "d" then ["z"]
    else if l = "e" then ["z"]
    else []⟩

/-- Corpus on which the rule mined for `a` carries the `outside vs` token
`b`, which is a suffix of `a`'s own signature token `ab`. -/
def c4Corpus : Corpus :=
  ⟨["a", "b"], fun l =>
    if l = "a" then ["ab"]
    else if l = "b" then ["ab", "b"]
    else []⟩

/-- One-label corpus: mining with `limit = 0` still emits one rule. -/
def c6Corpus : Corpus := ⟨["A"], fun l => if l = "A" then ["x"] else []⟩

/-- Two labels with identical signatures: mining aborts on the assertion
of line 135. -/
def c10Corpus : Corpus := ⟨["a", "b"], fun _ => ["x"]⟩

/-- Corpus with two groups of identical signatures (`a = b`, `c = d`),
listed out of order. -/
def c5Corpus : Corpus :=
  ⟨["b", "a", "c", "d"], fun l =>
    if l = "a" then ["x", "y"]
    else if l = "b" then ["y", "x"]
    else if l = "c" then ["z"]
    else if l = "d" then ["z"]
    else []⟩

/-- Per-label token occurrence counts on which the code and the claimed
retention ladder disagree: fifty tokens at the maximal count 100 followed
by one token `z` at count 95. -/
def c9Counts : List (String × Nat) :=
  ((List.range 50).map (fun i => (toString i, 100))) ++ [("z", 95)]

/-- A rule table assigning the same single rule to every label. -/
def sameRules : String → List (List Triplet) :=
  fun _ => [[Triplet.uniqueTo "x" 1]]

/-!  ## General lemmas -/

theorem countP_ext {α : Type} (p q : α → Bool) :
    ∀ l : List α, (∀ a ∈ l, p a = q a) → l.countP p = l.countP q := by
  intro l
  induction l with
  | nil => intro _; rfl
  | cons x xs ih =>
    intro h
    rw [List.countP_cons, List.countP_cons, h x (by simp),
      ih (fun a ha => h a (by simp [ha]))]

/-- C7: the evaluator's per-label metrics follow the claimed formulas
`precision = TP/(TP+FP)`, `recall = TP/(TP+FN)`,
`F1 = 2*P*R/(P+R)`, each reported as `0` together with a warning when its
denominator is zero instead of raising; in particular `TP=3, FP=1, FN=2`
gives precision `3/4`, recall `3/5` and `F1 = 2*(3/4)*(3/5)/(3/4+3/5)`,
and `TP=FP=0` gives precision `0` with a warning. -/
theorem C7_metric_formulas :
    (∀ tp fp fn : Nat,
      (metrics_row tp fp fn).precision =
        (if tp + fp = 0 then 0 else (tp : ℚ) / ((tp : ℚ) + (fp : ℚ))) ∧
      (metrics_row tp fp fn).recall_q =
        (if tp + fn = 0 then 0 else (tp : ℚ) / ((tp : ℚ) + (fn : ℚ))) ∧
      (metrics_row tp fp fn).f1 =
        (if (metrics_row tp fp fn).precision + (metrics_row tp fp fn).recall_q = 0
          then 0
          else 2 * (metrics_row tp fp fn).precision * (metrics_row tp fp fn).recall_q /
            ((metrics_row tp fp fn).precision + (metrics_row tp fp fn).recall_q)) ∧
      ((metrics_row tp fp fn).zero_precision_warn = true ↔ tp + fp = 0) ∧
      ((metrics_row tp fp fn).zero_recall_warn = true ↔ tp + fn = 0) ∧
      ((metrics_row tp fp fn).zero_f1_warn = true ↔
        (metrics_row tp fp fn).precision + (metrics_row tp fp fn).recall_q = 0)) ∧
    (metrics_row 3 1 2).precision = 3 / 4 ∧
    (metrics_row 3 1 2).recall_q = 3 / 5 ∧
    (metrics_row 3 1 2).f1 = 2 * (3 / 4) * (3 / 5) / (3 / 4 + 3 / 5) ∧
    (metrics_row 0 0 2).precision = 0 ∧
    (metrics_row 0 0 2).zero_precision_warn = true := by
  refine ⟨fun tp fp fn => ⟨rfl, rfl, ?_, ?_, ?_, ?_⟩, ?_, ?_, ?_, ?_, ?_⟩
  · simp only [metrics_row]
  · simp [metrics_row]
  · simp [metrics_row]
  · simp [metrics_row]
  · simp [metrics_row]
    norm_num
  · simp [metrics_row]
    norm_num
  · simp [metrics_row]
    norm_num
  · simp [metrics_row]
  · simp [metrics_row]

/-- C8: the prediction step of `check_rules_on_anthony_data` is not a
deterministic function of the rule sets, sample and threshold: on the
same input, two different random draws predict different labels, and
when no label's rule set fires the code still predicts some label drawn
at random instead of reporting no prediction. -/
theorem C8_random_choice :
    choose_predicted ["a", "b"] sameRules ["x"] (mkRat 1 2) 0 = some "a" ∧
    choose_predicted ["a", "b"] sameRules ["x"] (mkRat 1 2) 1 = some "b" ∧
    choose_predicted ["a", "b"] sameRules ["x"] (mkRat 1 2) 0 ≠
      choose_predicted ["a", "b"] sameRules ["x"] (mkRat 1 2) 1 ∧
    choose_predicted ["a", "b"] sameRules ["q"] (mkRat 1 2) 0 = some "a" := by
  exact ⟨rfl, rfl, by decide, rfl⟩

/-- C2: violated by the code.  On `c2Corpus`, the single rule mined for
label `a` uses token `z` in two `inside vs` triplets (against `b` and
against `c`), because the candidate's own tokens are not excluded while
the candidate is being built; the per-label token-disjointness stated in
the claim (and in the docstring of `get_rules_per_label`) fails inside a
single rule. -/
theorem C2_token_disjointness_fails :
    get_rules_per_label c2Corpus "a" 1 0 =
      Except.ok [[Triplet.uniqueTo "t" 3, Triplet.insideVs "z" "b",
        Triplet.insideVs "z" "c"]] ∧
    countDiscToken
      [Triplet.uniqueTo "t" 3, Triplet.insideVs "z" "b", Triplet.insideVs "z" "c"]
      "z" = 2 := by
  exact ⟨rfl, rfl⟩

/-!  ## Classifier semantics (claim C3) -/

theorem token_matches_iff_suffix (t v : String) (h : t.data ≠ []) :
    token_matches t v = true ↔ t.data <:+ v.data := by
  unfold token_matches tail_slice
  rw [if_neg (fun hc => h (List.eq_nil_of_length_eq_zero hc)),
    List.suffix_iff_eq_drop]
  exact beq_iff_eq

theorem token_matches_eq_decide (t v : String) (h : t.data ≠ []) :
    token_matches t v = decide (t.data <:+ v.data) := by
  rw [Bool.eq_iff_iff]
  simp [token_matches_iff_suffix t v h]

theorem token_matches_self (t : String) : token_matches t t = true := by
  unfold token_matches tail_slice
  rcases h : t.data.length with _ | n
  · simp
  · simp [h]

theorem triplet_breaks_eq_not_spec (changes : List String) (tr : Triplet)
    (h : (tripletToken tr).data ≠ []) :
    triplet_breaks changes tr = !spec_triplet_pass changes tr := by
  have hf : changes.filter (fun v => token_matches (tripletToken tr) v) =
      changes.filter (fun v => decide ((tripletToken tr).data <:+ v.data)) := by
    apply List.filter_congr
    intro v _
    exact token_matches_eq_decide _ v h
  cases tr with
  | uniqueTo t i =>
    rw [Bool.eq_iff_iff]
    simp only [triplet_breaks, spec_triplet_pass, spec_present, isOutside,
      tripletToken] at hf ⊢
    rw [hf]
    simp [List.length_eq_zero, List.filter_eq_nil_iff, List.any_eq_true]
  | insideVs t o =>
    rw [Bool.eq_iff_iff]
    simp only [triplet_breaks, spec_triplet_pass, spec_present, isOutside,
      tripletToken] at hf ⊢
    rw [hf]
    simp [List.length_eq_zero, List.filter_eq_nil_iff, List.any_eq_true]
  | outsideVs t o =>
    rw [Bool.eq_iff_iff]
    simp only [triplet_breaks, spec_triplet_pass, spec_present, isOutside,
      tripletToken] at hf ⊢
    rw [hf]
    simp [List.length_eq_zero, List.filter_eq_nil_iff, List.any_eq_true]

theorem rule_correct_eq_spec (changes : List String) :
    ∀ r : List Triplet, (∀ tr ∈ r, (tripletToken tr).data ≠ []) →
      rule_correct changes r = spec_rule_pass changes r := by
  intro r
  induction r with
  | nil => intro _; rfl
  | cons tr rest ih =>
    intro h
    rw [rule_correct, spec_rule_pass, List.all_cons,
      triplet_breaks_eq_not_spec changes tr (h tr (by simp))]
    rcases hp : spec_triplet_pass changes tr with _ | _
    · simp
    · simpa using ih (fun u hu => h u (by simp [hu]))

/-- C3: for a nonempty rule list whose triplet tokens are nonempty
strings, `if_label` returns `true` exactly when the fraction of rules all
of whose triplets pass reaches the threshold, presence being suffix
match, absence its negation, and the first failing triplet failing its
whole rule.  (The nonempty-token hypothesis is forced by the
counterexample `C3_empty_token_cex`: for an empty rule token the Python
slice `v[-0:]` is the whole sample token, not an empty suffix.) -/
theorem C3_if_label_spec (rules : List (List Triplet)) (changes : List String)
    (threshold : ℚ) (hne : rules ≠ [])
    (htok : ∀ r ∈ rules, ∀ tr ∈ r, (tripletToken tr).data ≠ []) :
    if_label rules changes threshold = some true ↔
      ((rules.countP (fun r => spec_rule_pass changes r) : ℚ) /
        (rules.length : ℚ) ≥ threshold) := by
  have hlen : rules.length ≠ 0 := by
    simpa [List.length_eq_zero] using hne
  have hcount : rules.countP (fun r => rule_correct changes r) =
      rules.countP (fun r => spec_rule_pass changes r) := by
    apply countP_ext
    intro r hr
    exact rule_correct_eq_spec changes r (htok r hr)
  rw [if_label, if_neg hlen]
  rw [Option.some_inj, decide_eq_true_iff, hcount, Rat.mkRat_eq_div]
  push_cast
  exact ⟨fun h => h, fun h => h⟩

/-- Witness for C3 at a concrete input: one one-triplet rule with token
`x`, sample `{x}`, threshold `1`. -/
theorem C3_witness :
    if_label [[Triplet.uniqueTo "x" 1]] ["x"] 1 = some true ↔
      ((List.countP (fun r => spec_rule_pass ["x"] r)
          [[Triplet.uniqueTo "x" 1]] : ℚ) /
        (([[Triplet.uniqueTo "x" 1]] : List (List Triplet)).length : ℚ) ≥ 1) :=
  C3_if_label_spec [[Triplet.uniqueTo "x" 1]] ["x"] 1 (by decide) (by decide)

/-- Counterexample to C3 as stated: with the empty rule token, suffix
semantics says the rule passes on sample `{a}` (the empty string is a
suffix of every string), so the claimed ratio is `1 ≥ 1`, yet `if_label`
returns `false` because the Python membership test `'' == v[-0:]`
compares against the whole sample token. -/
theorem C3_empty_token_cex :
    ¬(if_label [[Triplet.uniqueTo "" 1]] ["a"] 1 = some true ↔
      ((List.countP (fun r => spec_rule_pass ["a"] r)
          [[Triplet.uniqueTo "" 1]] : ℚ) /
        (([[Triplet.uniqueTo "" 1]] : List (List Triplet)).length : ℚ) ≥ 1)) := by
  intro h
  have hc : List.countP (fun r => spec_rule_pass ["a"] r)
      [[Triplet.uniqueTo "" 1]] = 1 := rfl
  have h1 : ((List.countP (fun r => spec_rule_pass ["a"] r)
      [[Triplet.uniqueTo "" 1]] : ℚ) /
      (([[Triplet.uniqueTo "" 1]] : List (List Triplet)).length : ℚ) ≥ 1) := by
    rw [hc]
    norm_num
  have hLhs := h.mpr h1
  have hval : if_label [[Triplet.uniqueTo "" 1]] ["a"] 1 = some false := rfl
  rw [hval] at hLhs
  simp at hLhs

/-!  ## Signature retention ladder (claim C9) -/

/-- The cross-multiplied `Nat` comparisons of `ladder_stop` agree with
the exact rational forms of the source's float comparisons. -/
theorem ladder_stop_iff_rat (cnt mv size : Nat) :
    ladder_stop cnt mv size = true ↔
      ((cnt ≠ mv ∧ 50 < size) ∨
        ((cnt : ℚ) < 94 / 100 * (mv : ℚ) ∧ 40 ≤ size) ∨
        ((cnt : ℚ) < 88 / 100 * (mv : ℚ) ∧ 26 ≤ size) ∨
        ((cnt : ℚ) < 8 / 10 * (mv : ℚ) ∧ 16 ≤ size) ∨
        ((cnt : ℚ) < 7 / 10 * (mv : ℚ) ∧ 10 ≤ size) ∨
        ((cnt : ℚ) < 6 / 10 * (mv : ℚ) ∧ 8 ≤ size) ∨
        ((cnt : ℚ) < 5 / 10 * (mv : ℚ) ∧ 6 ≤ size)) := by
  have key : ∀ a b d : Nat, 0 < d →
      (d * cnt < a * mv ↔ (cnt : ℚ) < (a : ℚ) / (d : ℚ) * (mv : ℚ)) := by
    intro a b d hd
    rw [div_mul_eq_mul_div, lt_div_iff₀ (by exact_mod_cast hd)]
    constructor
    · intro hlt
      rw [mul_comm]
      exact_mod_cast hlt
    · intro hlt
      have : (d : ℚ) * (cnt : ℚ) < (a : ℚ) * (mv : ℚ) := by
        rw [mul_comm (d : ℚ)]
        exact hlt
      exact_mod_cast this
  simp only [ladder_stop, Bool.or_eq_true, Bool.and_eq_true, decide_eq_true_iff]
  rw [key 94 0 100 (by norm_num), key 88 0 100 (by norm_num),
    key 8 0 10 (by norm_num), key 7 0 10 (by norm_num),
    key 6 0 10 (by norm_num), key 5 0 10 (by norm_num)]
  simp [or_assoc]

/-- The ladder scan emits exactly the longest prefix of its input on
which no break condition fires, and stops at the first firing one. -/
theorem ladder_scan_front (mv : Nat) :
    ∀ (l : List (String × Nat)) (acc : List String),
      ∃ k, k ≤ l.length ∧
        ladder_scan mv l acc = acc ++ (l.take k).map (fun p => p.1) ∧
        (∀ j, j < k →
          ladder_stop (l.getD j ("", 0)).2 mv (acc.length + j) = false) ∧
        (k < l.length →
          ladder_stop (l.getD k ("", 0)).2 mv (acc.length + k) = true) := by
  intro l
  induction l with
  | nil =>
    intro acc
    exact ⟨0, by simp, by simp [ladder_scan], by simp, by simp⟩
  | cons p rest ih =>
    intro acc
    rcases p with ⟨tok, cnt⟩
    by_cases hstop : ladder_stop cnt mv acc.length = true
    · refine ⟨0, by simp, ?_, by simp, ?_⟩
      · simp [ladder_scan, hstop]
      · intro _
        simpa using hstop
    · rcases ih (acc ++ [tok]) with ⟨k, hk, hscan, hok, hbreak⟩
      refine ⟨k + 1, by simpa using Nat.succ_le_succ hk, ?_, ?_, ?_⟩
      · rw [ladder_scan, if_neg hstop, hscan]
        simp
      · intro j hj
        cases j with
        | zero =>
          simpa using Bool.not_eq_true _ |>.mp hstop
        | succ j0 =>
          have := hok j0 (by omega)
          simpa [List.length_append, Nat.add_assoc, Nat.add_comm 1 j0] using this
      · intro hlt
        have hlt2 : k < rest.length := by
          simp only [List.length_cons] at hlt
          omega
        have := hbreak hlt2
        simpa [List.length_append, Nat.add_assoc, Nat.add_comm 1 k] using this

/-- C9 (amended): `retain` considers the tokens in descending occurrence
count (`countGe`-sorted, stable) and admits exactly the longest prefix on
which no ladder pair fires, where the ladder is the source's: the pair
`(1.00, 50)` fires only when the signature has strictly more than 50
tokens (`50 < size`), while the remaining pairs fire at
`minSize ≤ size`, each with frequency strictly below `ratio * maxFreq`. -/
theorem C9_retention_ladder (counts : List (String × Nat)) :
    List.Sorted countGe (counts.insertionSort countGe) ∧
    (∃ k, k ≤ (counts.insertionSort countGe).length ∧
      retain counts =
        (((counts.insertionSort countGe).take k).map (fun p => p.1)) ∧
      (∀ j, j < k →
        ladder_stop ((counts.insertionSort countGe).getD j ("", 0)).2
          (maxval counts) j = false) ∧
      (k < (counts.insertionSort countGe).length →
        ladder_stop ((counts.insertionSort countGe).getD k ("", 0)).2
          (maxval counts) k = true)) := by
  constructor
  · exact List.sorted_insertionSort countGe counts
  · rcases ladder_scan_front (maxval counts) (counts.insertionSort countGe) []
      with ⟨k, hk, hscan, hok, hbreak⟩
    refine ⟨k, hk, ?_, ?_, ?_⟩
    · rw [retain, hscan]
      simp
    · intro j hj
      simpa using hok j hj
    · intro hlt
      simpa using hbreak hlt

/-- Witness for C9 at the concrete counts `c9Counts`. -/
theorem C9_witness :
    List.Sorted countGe (c9Counts.insertionSort countGe) ∧
    (∃ k, k ≤ (c9Counts.insertionSort countGe).length ∧
      retain c9Counts =
        (((c9Counts.insertionSort countGe).take k).map (fun p => p.1)) ∧
      (∀ j, j < k →
        ladder_stop ((c9Counts.insertionSort countGe).getD j ("", 0)).2
          (maxval c9Counts) j = false) ∧
      (k < (c9Counts.insertionSort countGe).length →
        ladder_stop ((c9Counts.insertionSort countGe).getD k ("", 0)).2
          (maxval c9Counts) k = true)) :=
  C9_retention_ladder c9Counts

set_option maxRecDepth 4000 in
/-- Counterexample to C9 as stated: on `c9Counts` (fifty tokens at the
maximal count, one token `z` at 95% of it) the code admits `z` as the
51st token, whereas the claim's ladder, whose pair `(1.00, 50)` stops
admission once the signature has already reached 50 tokens and the
frequency is below the maximum, excludes it. -/
theorem C9_strict_first_rung_cex :
    (retain c9Counts).length = 51 ∧ "z" ∈ retain c9Counts ∧
    (spec_retain c9Counts).length = 50 ∧ "z" ∉ spec_retain c9Counts := by
  refine ⟨by decide, by decide, by decide, by decide⟩

/-!  ## Duplicate resolver (claim C5) -/

theorem sig_eq_trans {c : Corpus} {a b d : String} (h1 : sig_eq c a b)
    (h2 : sig_eq c b d) : sig_eq c a d :=
  ⟨fun t ht => h2.1 t (h1.1 t ht), fun t ht => h1.2 t (h2.2 t ht)⟩

theorem foldl_min_mem :
    ∀ (xs : List Nat) (a : Nat), xs.foldl Nat.min a = a ∨ xs.foldl Nat.min a ∈ xs := by
  intro xs
  induction xs with
  | nil => intro a; left; rfl
  | cons x rest ih =>
    intro a
    rcases ih (Nat.min a x) with h | h
    · rw [List.foldl_cons, h]
      by_cases hax : a ≤ x
      · left
        have hmin : Nat.min a x = a := by
          rw [Nat.min_eq_min]
          omega
        rw [hmin]
      · right
        have hmin : Nat.min a x = x := by
          rw [Nat.min_eq_min]
          omega
        rw [hmin]
        exact List.mem_cons_self x rest
    · right
      rw [List.foldl_cons]
      exact List.mem_cons_of_mem x h

theorem firstToken_exists (c : Corpus) (l : String) (h : c.sig l ≠ []) :
    ∃ t, firstToken c l = some t ∧ t ∈ c.sig l := by
  have hmem : ∃ t ∈ c.sig l, uniq c t = firstIndex c l := by
    rcases hd : c.sig l with _ | ⟨x, xs⟩
    · exact absurd hd h
    · have : firstIndex c l = (xs.map (fun t => uniq c t)).foldl Nat.min (uniq c x) := by
        rw [firstIndex, hd]
        simp
      rcases foldl_min_mem (xs.map (fun t => uniq c t)) (uniq c x) with hf | hf
    -- the minimum over the mapped list is attained at some signature token
      · exact ⟨x, List.mem_cons_self x xs, by rw [this, hf]⟩
      · rw [← this] at hf
        rcases List.mem_map.mp hf with ⟨t, ht, hu⟩
        exact ⟨t, List.mem_cons_of_mem x ht, hu⟩
  rcases hmem with ⟨t, ht, hu⟩
  have hne : (c.sig l).filter (fun u => uniq c u == firstIndex c l) ≠ [] := by
    intro hnil
    have := List.filter_eq_nil_iff.mp hnil t ht
    simp [hu] at this
  rcases hx : ((c.sig l).filter (fun u => uniq c u == firstIndex c l)).head? with _ | ⟨t0⟩
  · exact absurd (List.head?_eq_none_iff.mp hx) hne
  · refine ⟨t0, by rw [firstToken, hx], ?_⟩
    have := List.head?_eq_some_iff.mp hx
    rcases this with ⟨rest, hrest⟩
    have : t0 ∈ (c.sig l).filter (fun u => uniq c u == firstIndex c l) := by
      rw [hrest]
      exact List.mem_cons_self t0 rest
    exact List.mem_of_mem_filter this

theorem dupInner_mem (c : Corpus) (label : String) :
    ∀ (pot ds : List String) (M : String),
      M ∈ dupInner c label ds pot ↔
        M ∈ ds ∨ (M ∈ pot ∧ label < M ∧ sig_eq c label M) := by
  intro pot
  induction pot with
  | nil =>
    intro ds M
    simp [dupInner]
  | cons o rest ih =>
    intro ds M
    have hstep : dupInner c label ds (o :: rest) =
        dupInner c label
          (if o ≤ label ∨ o ∈ ds then ds
           else if sig_eq c label o then ds ++ [o] else ds) rest := by
      rw [dupInner, dupInner, List.foldl_cons]
    rw [hstep]
    by_cases hskip : o ≤ label ∨ o ∈ ds
    · rw [if_pos hskip, ih]
      constructor
      · rintro (hds | ⟨hrest, hlt, heq⟩)
        · exact Or.inl hds
        · exact Or.inr ⟨List.mem_cons_of_mem o hrest, hlt, heq⟩
      · rintro (hds | ⟨hcons, hlt, heq⟩)
        · exact Or.inl hds
        · rcases List.mem_cons.mp hcons with rfl | hrest
          · rcases hskip with hle | hmem
            · exact absurd (lt_of_le_of_lt hle hlt) (lt_irrefl _)
            · exact Or.inl hmem
          · exact Or.inr ⟨hrest, hlt, heq⟩
    · rw [if_neg hskip]
      have hlt : label < o := by
        rcases not_or.mp hskip with ⟨hle, _⟩
        exact lt_of_not_le hle
      by_cases heqo : sig_eq c label o
      · rw [if_pos heqo, ih]
        constructor
        · rintro (hds | ⟨hrest, hl, he⟩)
          · rcases List.mem_append.mp hds with hds | ho
            · exact Or.inl hds
            · rcases List.mem_singleton.mp ho with rfl
              exact Or.inr ⟨List.mem_cons_self M rest, hlt, heqo⟩
          · exact Or.inr ⟨List.mem_cons_of_mem o hrest, hl, he⟩
        · rintro (hds | ⟨hcons, hl, he⟩)
          · exact Or.inl (List.mem_append_left _ hds)
          · rcases List.mem_cons.mp hcons with rfl | hrest
            · exact Or.inl (List.mem_append_right _ (List.mem_singleton.mpr rfl))
            · exact Or.inr ⟨hrest, hl, he⟩
      · rw [if_neg heqo, ih]
        constructor
        · rintro (hds | ⟨hrest, hl, he⟩)
          · exact Or.inl hds
          · exact Or.inr ⟨List.mem_cons_of_mem o hrest, hl, he⟩
        · rintro (hds | ⟨hcons, hl, he⟩)
          · exact Or.inl hds
          · rcases List.mem_cons.mp hcons with rfl | hrest
            · exact absurd he heqo
            · exact Or.inr ⟨hrest, hl, he⟩

theorem dupStep_mem (c : Corpus) (hs : ∀ l ∈ c.labels, c.sig l ≠ [])
    (P : List String) (_hP : ∀ l ∈ P, l ∈ c.labels)
    (ds : List String) (hds : ∀ M, M ∈ ds ↔ dupSpec c P M)
    (label : String) (hl : label ∈ c.labels) :
    ∀ M, M ∈ dupStep c ds label ↔ dupSpec c (P ++ [label]) M := by
  have hsplit : ∀ M, dupSpec c (P ++ [label]) M ↔
      dupSpec c P M ∨ (label < M ∧ sig_eq c label M ∧ M ∈ c.labels) := by
    intro M
    constructor
    · rintro ⟨L, hL, hlt, heq, hM⟩
      rcases List.mem_append.mp hL with hL | hL
      · exact Or.inl ⟨L, hL, hlt, heq, hM⟩
      · rcases List.mem_singleton.mp hL with rfl
        exact Or.inr ⟨hlt, heq, hM⟩
    · rintro (⟨L, hL, hlt, heq, hM⟩ | ⟨hlt, heq, hM⟩)
      · exact ⟨L, List.mem_append_left _ hL, hlt, heq, hM⟩
      · exact ⟨label, List.mem_append_right _ (List.mem_singleton.mpr rfl), hlt, heq, hM⟩
  intro M
  rw [dupStep]
  by_cases hin : label ∈ ds
  · rw [if_pos hin, hds M, hsplit M]
    constructor
    · exact Or.inl
    · rintro (h | ⟨hlt, heq, hM⟩)
      · exact h
      · rcases (hds label).mp hin with ⟨L0, hL0, hlt0, heq0, _⟩
        exact ⟨L0, hL0, lt_trans hlt0 hlt, sig_eq_trans heq0 heq, hM⟩
  · rw [if_neg hin]
    rcases firstToken_exists c label (hs label hl) with ⟨t, hft, htl⟩
    rw [hft]
    rw [dupInner_mem c label _ ds M, hds M, hsplit M]
    have hpot : (M ∈ (tokenToLabels c t).insertionSort (· ≤ ·) ∧
        label < M ∧ sig_eq c label M) ↔
        (label < M ∧ sig_eq c label M ∧ M ∈ c.labels) := by
      constructor
      · rintro ⟨hmem, hlt, heq⟩
        have : M ∈ tokenToLabels c t := List.mem_insertionSort _ |>.mp hmem
        exact ⟨hlt, heq, List.mem_of_mem_filter this⟩
      · rintro ⟨hlt, heq, hM⟩
        refine ⟨?_, hlt, heq⟩
        rw [List.mem_insertionSort]
        rw [tokenToLabels, List.mem_filter]
        exact ⟨hM, by simpa using heq.1 t htl⟩
    rw [hpot]

theorem dups_foldl (c : Corpus) (hs : ∀ l ∈ c.labels, c.sig l ≠ []) :
    ∀ (toProc : List String), (∀ l ∈ toProc, l ∈ c.labels) →
      ∀ (P ds : List String), (∀ l ∈ P, l ∈ c.labels) →
        (∀ M, M ∈ ds ↔ dupSpec c P M) →
        ∀ M, M ∈ toProc.foldl (dupStep c) ds ↔ dupSpec c (P ++ toProc) M := by
  intro toProc
  induction toProc with
  | nil =>
    intro _ P ds _ hds M
    rw [List.foldl_nil, List.append_nil]
    exact hds M
  | cons label rest ih =>
    intro hsub P ds hP hds M
    rw [List.foldl_cons]
    have hstep := dupStep_mem c hs P hP ds hds label (hsub label (by simp))
    have hP2 : ∀ l ∈ P ++ [label], l ∈ c.labels := by
      intro l hl
      rcases List.mem_append.mp hl with hl | hl
      · exact hP l hl
      · rcases List.mem_singleton.mp hl with rfl
        exact hsub _ (by simp)
    have := ih (fun l hl => hsub l (by simp [hl])) (P ++ [label])
      (dupStep c ds label) hP2 hstep M
    rw [this, List.append_assoc]
    rfl

/-- C5: characterization of `get_duplicates`: a label is returned exactly
when some lexicographically smaller label of the corpus has an identical
signature.  Hence for `L < M` with equal signatures `M` is returned, the
lexicographically smallest label of every identical-signature group is
never returned, and filtering the returned set out retains exactly that
smallest representative per group. -/
theorem C5_duplicates_iff (c : Corpus) (hs : ∀ l ∈ c.labels, c.sig l ≠ [])
    (M : String) :
    M ∈ get_duplicates c ↔
      M ∈ c.labels ∧ ∃ L ∈ c.labels, L < M ∧ sig_eq c L M := by
  rw [get_duplicates]
  have hsub : ∀ l ∈ c.labels.insertionSort (· ≤ ·), l ∈ c.labels := by
    intro l hl
    exact List.mem_insertionSort _ |>.mp hl
  have hds : ∀ N, N ∈ ([] : List String) ↔ dupSpec c [] N := by
    intro N
    simp [dupSpec]
  rw [dups_foldl c hs _ hsub [] [] (by intro l hl; cases hl) hds M,
    List.nil_append]
  constructor
  · rintro ⟨L, hL, hlt, heq, hM⟩
    exact ⟨hM, L, hsub L hL, hlt, heq⟩
  · rintro ⟨hM, L, hL, hlt, heq⟩
    exact ⟨L, List.mem_insertionSort _ |>.mpr hL, hlt, heq, hM⟩

/-- Witness for C5 on `c5Corpus`: `b` (duplicate of the smaller `a`) is
returned, the group minimum `a` is not. -/
theorem C5_witness :
    "b" ∈ get_duplicates c5Corpus ∧ "a" ∉ get_duplicates c5Corpus := by
  constructor
  · refine (C5_duplicates_iff c5Corpus (by decide) "b").mpr
      ⟨by decide, "a", by decide, ?_, by decide⟩
    rw [String.lt_iff_toList_lt]
    decide
  · intro h
    rcases (C5_duplicates_iff c5Corpus (by decide) "a").mp h with ⟨_, L, hL, hlt, _⟩
    have hL4 : L = "b" ∨ L = "a" ∨ L = "c" ∨ L = "d" := by
      simpa [c5Corpus] using hL
    rw [String.lt_iff_toList_lt] at hlt
    rcases hL4 with rfl | rfl | rfl | rfl
    · exact absurd hlt (by decide)
    · exact absurd hlt (by decide)
    · exact absurd hlt (by decide)
    · exact absurd hlt (by decide)

/-!  ## Rule miner invariants (claims C1, C6, C4, C10) -/

theorem head_mem_of_head? {α : Type} {l : List α} {a : α}
    (h : l.head? = some a) : a ∈ l := by
  cases l with
  | nil => cases h
  | cons x xs =>
    rw [List.head?_cons, Option.some_inj] at h
    rw [← h]
    exact List.mem_cons_self x xs

theorem mem_plusDiff {c : Corpus} {l o u : String} :
    u ∈ plusDiff c l o ↔ u ∈ c.sig l ∧ u ∉ c.sig o := by
  simp [plusDiff, List.mem_filter]

theorem mem_minusDiff {c : Corpus} {l o u : String} :
    u ∈ minusDiff c l o ↔ u ∈ c.sig o ∧ u ∉ c.sig l := by
  simp [minusDiff, List.mem_filter]

theorem addDiscriminators_ok_facts (c : Corpus) (label : String)
    (used : List String) :
    ∀ (others : List String) (trips : List Triplet),
      addDiscriminators c label used others = Except.ok trips →
      trips.length ≤ others.length ∧
      (∀ tr ∈ trips,
        (∃ u o, tr = Triplet.insideVs u o ∧ u ∈ c.sig label ∧ u ∉ c.sig o) ∨
        (∃ u o, tr = Triplet.outsideVs u o ∧ u ∈ c.sig o ∧ u ∉ c.sig label)) ∧
      (trips.length = others.length →
        ∀ O, countTarget trips O = others.count O) := by
  intro others
  induction others with
  | nil =>
    intro trips h
    rw [addDiscriminators] at h
    cases h
    refine ⟨Nat.le_refl _, ?_, ?_⟩
    · intro tr htr
      cases htr
    · intro _ O
      rfl
  | cons o rest ih =>
    intro trips h
    rw [addDiscriminators] at h
    by_cases hass :
        (plusDiff c label o).length + (minusDiff c label o).length = 0
    · rw [if_pos hass] at h
      exact Except.noConfusion h
    · rw [if_neg hass] at h
      rcases hp : ((plusDiff c label o).filter
          (fun t => decide (t ∉ used))).head? with _ | u
      · rw [hp] at h
        rcases hm : ((minusDiff c label o).filter
            (fun t => decide (t ∉ used))).head? with _ | u
        · rw [hm] at h
          cases h
          refine ⟨Nat.zero_le _, ?_, ?_⟩
          · intro tr htr
            cases htr
          · intro heq
            simp at heq
        · rw [hm] at h
          rcases hAD : addDiscriminators c label used rest with e | trips2 <;>
            rw [hAD] at h
          · exact Except.noConfusion h
          · cases h
            rcases ih trips2 hAD with ⟨hle, hprov, hcnt⟩
            have humem : u ∈ minusDiff c label o := by
              have := head_mem_of_head? hm
              exact List.mem_of_mem_filter this
            rcases mem_minusDiff.mp humem with ⟨huo, hul⟩
            refine ⟨by simpa using Nat.succ_le_succ hle, ?_, ?_⟩
            · intro tr htr
              rcases List.mem_cons.mp htr with rfl | htr2
              · exact Or.inr ⟨u, o, rfl, huo, hul⟩
              · exact hprov tr htr2
            · intro heq O
              have heq2 : trips2.length = rest.length := by
                simpa using heq
              rw [countTarget, List.countP_cons, List.count_cons]
              have hc2 := hcnt heq2 O
              rw [countTarget] at hc2
              rw [hc2]
              congr 1
      · rw [hp] at h
        rcases hAD : addDiscriminators c label used rest with e | trips2 <;>
          rw [hAD] at h
        · exact Except.noConfusion h
        · cases h
          rcases ih trips2 hAD with ⟨hle, hprov, hcnt⟩
          have humem : u ∈ plusDiff c label o := by
            have := head_mem_of_head? hp
            exact List.mem_of_mem_filter this
          rcases mem_plusDiff.mp humem with ⟨hul, huo⟩
          refine ⟨by simpa using Nat.succ_le_succ hle, ?_, ?_⟩
          · intro tr htr
            rcases List.mem_cons.mp htr with rfl | htr2
            · exact Or.inl ⟨u, o, rfl, hul, huo⟩
            · exact hprov tr htr2
          · intro heq O
            have heq2 : trips2.length = rest.length := by
              simpa using heq
            rw [countTarget, List.countP_cons, List.count_cons]
            have hc2 := hcnt heq2 O
            rw [countTarget] at hc2
            rw [hc2]
            congr 1

theorem length_filter_ne_of_nodup_mem :
    ∀ (l : List String) (a : String), l.Nodup → a ∈ l →
      (l.filter (fun o => o != a)).length = l.length - 1 := by
  intro l
  induction l with
  | nil => intro a _ ha; cases ha
  | cons x xs ih =>
    intro a hnd ha
    rcases List.nodup_cons.mp hnd with ⟨hx, hxs⟩
    rcases List.mem_cons.mp ha with rfl | ha2
    · rw [List.filter_cons_of_neg (by simp)]
      have : xs.filter (fun o => o != a) = xs := by
        apply List.filter_eq_self.mpr
        intro o ho
        simp
        intro hoa
        rw [hoa] at ho
        exact hx ho
      rw [this]
      simp
    · have hxa : x ≠ a := by
        intro hxa
        rw [hxa] at hx
        exact hx ha2
      rw [List.filter_cons_of_pos (by simp [hxa])]
      rw [List.length_cons, ih a hxs ha2]
      have : 0 < xs.length := List.length_pos_of_mem ha2
      simp only [List.length_cons]
      omega

theorem accepted_minedRule (c : Corpus) (label : String)
    (hnd : c.labels.Nodup) (hl : label ∈ c.labels) (index : Nat)
    (token : String) (htok : token ∈ c.sig label)
    (hidx : uniq c token = index)
    (used : List String) (trips : List Triplet)
    (hAD : addDiscriminators c label used
      ((tokenToLabels c token).filter (fun o => o != label)) = Except.ok trips)
    (hlong : ¬((Triplet.uniqueTo token index :: trips).length < index)) :
    minedRule c label (Triplet.uniqueTo token index :: trips) := by
  subst hidx
  have hTL : label ∈ tokenToLabels c token := by
    rw [tokenToLabels, List.mem_filter]
    exact ⟨hl, by simpa using htok⟩
  have hnodTL : (tokenToLabels c token).Nodup := hnd.filter _
  have hothers : ((tokenToLabels c token).filter (fun o => o != label)).length =
      uniq c token - 1 :=
    length_filter_ne_of_nodup_mem _ label hnodTL hTL
  have hpos : 0 < uniq c token := List.length_pos_of_mem hTL
  rcases addDiscriminators_ok_facts c label used _ trips hAD with ⟨hle, hprov, hcnt⟩
  rw [hothers] at hle
  rw [List.length_cons] at hlong
  have hlen : trips.length = uniq c token - 1 := by omega
  refine ⟨token, trips, rfl, htok, ?_, ?_, hprov⟩
  · rw [List.length_cons, hlen]
    omega
  · intro O hO hne
    have hOo : O ∈ (tokenToLabels c token).filter (fun o => o != label) := by
      rw [List.mem_filter]
      exact ⟨hO, by simp [hne]⟩
    have h1 : ((tokenToLabels c token).filter (fun o => o != label)).count O = 1 :=
      List.count_eq_one_of_mem (hnodTL.filter _) hOo
    have hc := hcnt (by rw [hlen, hothers]) O
    rw [countTarget, List.countP_cons]
    rw [countTarget] at hc
    rw [hc, h1]
    simp [tripletTarget]

theorem mineTokens_minedRule (c : Corpus) (label : String)
    (hnd : c.labels.Nodup) (hl : label ∈ c.labels) (limit index : Nat) :
    ∀ (tks : List String) (st st2 : MineState),
      (∀ tok ∈ tks, tok ∈ c.sig label ∧ uniq c tok = index) →
      (∀ r ∈ st.rules, minedRule c label r) →
      mineTokens c label limit index tks st = Except.ok st2 →
      ∀ r ∈ st2.rules, minedRule c label r := by
  intro tks
  induction tks with
  | nil =>
    intro st st2 _ hinv h
    rw [mineTokens] at h
    cases h
    exact hinv
  | cons token rest ih =>
    intro st st2 htk hinv h
    rw [mineTokens] at h
    by_cases hused : token ∈ st.used
    · rw [if_pos hused] at h
      exact ih st st2 (fun u hu => htk u (List.mem_cons_of_mem _ hu)) hinv h
    · rw [if_neg hused] at h
      rcases hAD : addDiscriminators c label st.used
          ((tokenToLabels c token).filter (fun o => o != label)) with e | trips <;>
        rw [hAD] at h
      · exact Except.noConfusion h
      · dsimp only at h
        by_cases hshort : (Triplet.uniqueTo token index :: trips).length < index
        · rw [if_pos hshort] at h
          exact ih st st2 (fun u hu => htk u (List.mem_cons_of_mem _ hu)) hinv h
        · rw [if_neg hshort] at h
          rcases htk token (List.mem_cons_self _ _) with ⟨htok, hidx⟩
          have hrule : minedRule c label (Triplet.uniqueTo token index :: trips) :=
            accepted_minedRule c label hnd hl index token htok hidx
              st.used trips hAD hshort
          have hinv2 : ∀ r ∈ st.rules ++ [Triplet.uniqueTo token index :: trips],
              minedRule c label r := by
            intro r hr
            rcases List.mem_append.mp hr with hr | hr
            · exact hinv r hr
            · rcases List.mem_singleton.mp hr with rfl
              exact hrule
          by_cases hlim :
              limit ≤ (st.rules ++ [Triplet.uniqueTo token index :: trips]).length
          · rw [if_pos hlim] at h
            cases h
            exact hinv2
          · rw [if_neg hlim] at h
            exact ih _ st2 (fun u hu => htk u (List.mem_cons_of_mem _ hu)) hinv2 h

theorem mineIndices_minedRule (c : Corpus) (label : String)
    (hnd : c.labels.Nodup) (hl : label ∈ c.labels) (limit max_index : Nat) :
    ∀ (idxs : List Nat) (st st2 : MineState),
      (∀ r ∈ st.rules, minedRule c label r) →
      mineIndices c label limit max_index idxs st = Except.ok st2 →
      ∀ r ∈ st2.rules, minedRule c label r := by
  intro idxs
  induction idxs with
  | nil =>
    intro st st2 hinv h
    rw [mineIndices] at h
    cases h
    exact hinv
  | cons index rest ih =>
    intro st st2 hinv h
    rw [mineIndices] at h
    by_cases hdone : st.done = true
    · rw [if_pos hdone] at h
      cases h
      exact hinv
    · rw [if_neg hdone] at h
      by_cases hmax : 0 < max_index ∧ max_index < index
      · rw [if_pos hmax] at h
        cases h
        exact hinv
      · rw [if_neg hmax] at h
        rcases hmt : mineTokens c label limit index (tokenGroup c label index) st
            with e | st3 <;> rw [hmt] at h
        · exact Except.noConfusion h
        · have hgrp : ∀ tok ∈ tokenGroup c label index,
              tok ∈ c.sig label ∧ uniq c tok = index := by
            intro tok htok
            rcases List.mem_filter.mp htok with ⟨h1, h2⟩
            exact ⟨h1, by simpa using h2⟩
          exact ih st3 st2
            (mineTokens_minedRule c label hnd hl limit index _ st st3 hgrp hinv hmt) h

theorem get_rules_minedRule (c : Corpus) (label : String)
    (hnd : c.labels.Nodup) (hl : label ∈ c.labels) (limit max_index : Nat)
    (rules : List (List Triplet))
    (hok : get_rules_per_label c label limit max_index = Except.ok rules) :
    ∀ r ∈ rules, minedRule c label r := by
  rw [get_rules_per_label] at hok
  by_cases hsig : (c.sig label).length = 0
  · rw [if_pos hsig] at hok
    exact Except.noConfusion hok
  · rw [if_neg hsig] at hok
    rcases hmi : mineIndices c label limit max_index
        (List.range (c.labels.length + 1)) ⟨[], [], false⟩ with e | st <;>
      rw [hmi] at hok
    · exact Except.noConfusion hok
    · cases hok
      exact mineIndices_minedRule c label hnd hl limit max_index _ _ st
        (by intro r hr; cases hr) hmi

/-- C1: every rule emitted by `get_rules_per_label` for a label of the
corpus begins with a `unique to` triplet anchored at a token `t` carrying
`t`'s uniqueness index, contains exactly one `inside vs`/`outside vs`
triplet for each label other than the mined one in `token_to_labels[t]`,
and has total triplet count equal to `t`'s uniqueness index; shorter
candidates are never emitted. -/
theorem C1_rule_shape (c : Corpus) (label : String) (limit max_index : Nat)
    (rules : List (List Triplet))
    (hnd : c.labels.Nodup) (hl : label ∈ c.labels)
    (hok : get_rules_per_label c label limit max_index = Except.ok rules) :
    ∀ r ∈ rules, ∃ t, r.head? = some (Triplet.uniqueTo t (uniq c t)) ∧
      t ∈ c.sig label ∧ r.length = uniq c t ∧
      (∀ O ∈ tokenToLabels c t, O ≠ label → countTarget r O = 1) := by
  intro r hr
  rcases get_rules_minedRule c label hnd hl limit max_index rules hok r hr with
    ⟨t, trips, heq, htl, hlen, hcnt, _⟩
  subst heq
  exact ⟨t, rfl, htl, hlen, hcnt⟩

/-- Witness for C1 on the spec's own concrete scenario, mining `A`. -/
theorem C1_witness :
    ∃ t, ([Triplet.uniqueTo "x" 2, Triplet.insideVs "z" "B"] :
        List Triplet).head? = some (Triplet.uniqueTo t (uniq specScenario t)) ∧
      t ∈ specScenario.sig "A" ∧
      ([Triplet.uniqueTo "x" 2, Triplet.insideVs "z" "B"] :
        List Triplet).length = uniq specScenario t ∧
      (∀ O ∈ tokenToLabels specScenario t, O ≠ "A" →
        countTarget [Triplet.uniqueTo "x" 2, Triplet.insideVs "z" "B"] O = 1) :=
  C1_rule_shape specScenario "A" 1 5
    [[Triplet.uniqueTo "x" 2, Triplet.insideVs "z" "B"]]
    (by decide) (by decide) rfl
    [Triplet.uniqueTo "x" 2, Triplet.insideVs "z" "B"] (by decide)

theorem mineTokens_bound (c : Corpus) (label : String) (limit index : Nat) :
    ∀ (tks : List String) (st st2 : MineState),
      st.done = false → st.rules.length < limit →
      mineTokens c label limit index tks st = Except.ok st2 →
      st2.rules.length ≤ limit ∧ (st2.done = false → st2.rules.length < limit) := by
  intro tks
  induction tks with
  | nil =>
    intro st st2 _ hlt h
    rw [mineTokens] at h
    cases h
    exact ⟨Nat.le_of_lt hlt, fun _ => hlt⟩
  | cons token rest ih =>
    intro st st2 hdone hlt h
    rw [mineTokens] at h
    by_cases hused : token ∈ st.used
    · rw [if_pos hused] at h
      exact ih st st2 hdone hlt h
    · rw [if_neg hused] at h
      rcases hAD : addDiscriminators c label st.used
          ((tokenToLabels c token).filter (fun o => o != label)) with e | trips <;>
        rw [hAD] at h
      · exact Except.noConfusion h
      · dsimp only at h
        by_cases hshort : (Triplet.uniqueTo token index :: trips).length < index
        · rw [if_pos hshort] at h
          exact ih st st2 hdone hlt h
        · rw [if_neg hshort] at h
          by_cases hlim :
              limit ≤ (st.rules ++ [Triplet.uniqueTo token index :: trips]).length
          · rw [if_pos hlim] at h
            cases h
            refine ⟨?_, ?_⟩
            · simp only [List.length_append, List.length_singleton]
              omega
            · intro hfalse
              exact Bool.noConfusion hfalse
          · rw [if_neg hlim] at h
            refine ih _ st2 rfl ?_ h
            simp only [List.length_append, List.length_singleton] at hlim ⊢
            omega

theorem mineIndices_bound (c : Corpus) (label : String) (limit max_index : Nat) :
    ∀ (idxs : List Nat) (st st2 : MineState),
      st.rules.length ≤ limit → (st.done = false → st.rules.length < limit) →
      mineIndices c label limit max_index idxs st = Except.ok st2 →
      st2.rules.length ≤ limit := by
  intro idxs
  induction idxs with
  | nil =>
    intro st st2 hle _ h
    rw [mineIndices] at h
    cases h
    exact hle
  | cons index rest ih =>
    intro st st2 hle himp h
    rw [mineIndices] at h
    by_cases hdone : st.done = true
    · rw [if_pos hdone] at h
      cases h
      exact hle
    · rw [if_neg hdone] at h
      by_cases hmax : 0 < max_index ∧ max_index < index
      · rw [if_pos hmax] at h
        cases h
        exact hle
      · rw [if_neg hmax] at h
        rcases hmt : mineTokens c label limit index (tokenGroup c label index) st
            with e | st3 <;> rw [hmt] at h
        · exact Except.noConfusion h
        · have hfd : st.done = false := Bool.not_eq_true _ |>.mp hdone
          rcases mineTokens_bound c label limit index _ st st3 hfd (himp hfd) hmt
            with ⟨hle3, himp3⟩
          exact ih st3 st2 hle3 himp3 h

theorem mineTokens_order (c : Corpus) (label : String) (limit index : Nat) :
    ∀ (tks : List String) (st st2 : MineState),
      mineTokens c label limit index tks st = Except.ok st2 →
      (∀ r ∈ st.rules, anchorIndex r ≤ index) →
      st.rules.Pairwise (fun a b => anchorIndex a ≤ anchorIndex b) →
      (∀ r ∈ st2.rules, anchorIndex r ≤ index) ∧
      st2.rules.Pairwise (fun a b => anchorIndex a ≤ anchorIndex b) := by
  intro tks
  induction tks with
  | nil =>
    intro st st2 h hub hp
    rw [mineTokens] at h
    cases h
    exact ⟨hub, hp⟩
  | cons token rest ih =>
    intro st st2 h hub hp
    rw [mineTokens] at h
    by_cases hused : token ∈ st.used
    · rw [if_pos hused] at h
      exact ih st st2 h hub hp
    · rw [if_neg hused] at h
      rcases hAD : addDiscriminators c label st.used
          ((tokenToLabels c token).filter (fun o => o != label)) with e | trips <;>
        rw [hAD] at h
      · exact Except.noConfusion h
      · dsimp only at h
        by_cases hshort : (Triplet.uniqueTo token index :: trips).length < index
        · rw [if_pos hshort] at h
          exact ih st st2 h hub hp
        · rw [if_neg hshort] at h
          have hub2 : ∀ r ∈ st.rules ++ [Triplet.uniqueTo token index :: trips],
              anchorIndex r ≤ index := by
            intro r hr
            rcases List.mem_append.mp hr with hr | hr
            · exact hub r hr
            · rcases List.mem_singleton.mp hr with rfl
              exact Nat.le_refl _
          have hp2 : (st.rules ++ [Triplet.uniqueTo token index :: trips]).Pairwise
              (fun a b => anchorIndex a ≤ anchorIndex b) := by
            rw [List.pairwise_append]
            refine ⟨hp, List.pairwise_singleton _ _, ?_⟩
            intro a ha b hb
            rcases List.mem_singleton.mp hb with rfl
            exact hub a ha
          by_cases hlim :
              limit ≤ (st.rules ++ [Triplet.uniqueTo token index :: trips]).length
          · rw [if_pos hlim] at h
            cases h
            exact ⟨hub2, hp2⟩
          · rw [if_neg hlim] at h
            exact ih _ st2 h hub2 hp2

theorem mineIndices_order (c : Corpus) (label : String) (limit max_index : Nat) :
    ∀ (idxs : List Nat) (st st2 : MineState),
      mineIndices c label limit max_index idxs st = Except.ok st2 →
      idxs.Pairwise (· ≤ ·) →
      (∀ r ∈ st.rules, ∀ i ∈ idxs, anchorIndex r ≤ i) →
      st.rules.Pairwise (fun a b => anchorIndex a ≤ anchorIndex b) →
      st2.rules.Pairwise (fun a b => anchorIndex a ≤ anchorIndex b) := by
  intro idxs
  induction idxs with
  | nil =>
    intro st st2 h _ _ hp
    rw [mineIndices] at h
    cases h
    exact hp
  | cons index rest ih =>
    intro st st2 h hpi hub hp
    rw [mineIndices] at h
    by_cases hdone : st.done = true
    · rw [if_pos hdone] at h
      cases h
      exact hp
    · rw [if_neg hdone] at h
      by_cases hmax : 0 < max_index ∧ max_index < index
      · rw [if_pos hmax] at h
        cases h
        exact hp
      · rw [if_neg hmax] at h
        rcases hmt : mineTokens c label limit index (tokenGroup c label index) st
            with e | st3 <;> rw [hmt] at h
        · exact Except.noConfusion h
        · rcases List.pairwise_cons.mp hpi with ⟨hhead, hrest⟩
          rcases mineTokens_order c label limit index _ st st3 hmt
            (fun r hr => hub r hr index (List.mem_cons_self _ _)) hp
            with ⟨hub3, hp3⟩
          refine ih st3 st2 h hrest ?_ hp3
          intro r hr i hi
          exact Nat.le_trans (hub3 r hr) (hhead i hi)

/-- C6 (amended): for every limit of at least one, the rule list returned
by `get_rules_per_label` has length at most `limit` and its rules appear
in non-decreasing order of anchor uniqueness index (the anchor triplet of
every rule stores exactly the uniqueness index of its token).  (The
`1 ≤ limit` hypothesis is forced by `C6_limit_zero_cex`: with `limit = 0`
the length check runs only after a rule is appended, so one rule is still
emitted.) -/
theorem C6_limit_and_order (c : Corpus) (label : String)
    (limit max_index : Nat) (rules : List (List Triplet))
    (hnd : c.labels.Nodup) (hl : label ∈ c.labels) (hlimit : 1 ≤ limit)
    (hok : get_rules_per_label c label limit max_index = Except.ok rules) :
    rules.length ≤ limit ∧
    rules.Pairwise (fun a b => anchorIndex a ≤ anchorIndex b) ∧
    (∀ r ∈ rules, ∃ t, r.head? = some (Triplet.uniqueTo t (anchorIndex r)) ∧
      anchorIndex r = uniq c t) := by
  have hmr := get_rules_minedRule c label hnd hl limit max_index rules hok
  rw [get_rules_per_label] at hok
  by_cases hsig : (c.sig label).length = 0
  · rw [if_pos hsig] at hok
    exact Except.noConfusion hok
  · rw [if_neg hsig] at hok
    rcases hmi : mineIndices c label limit max_index
        (List.range (c.labels.length + 1)) ⟨[], [], false⟩ with e | st <;>
      rw [hmi] at hok
    · exact Except.noConfusion hok
    · cases hok
      refine ⟨?_, ?_, ?_⟩
      · exact mineIndices_bound c label limit max_index _ _ st
          (Nat.zero_le _) (fun _ => by simpa using hlimit) hmi
      · refine mineIndices_order c label limit max_index _ _ st hmi
          ((List.pairwise_lt_range _).imp Nat.le_of_lt) ?_ (List.Pairwise.nil)
        intro r hr
        cases hr
      · intro r hr
        rcases hmr r hr with ⟨t, trips, heq, _, _, _, _⟩
        subst heq
        exact ⟨t, rfl, rfl⟩

/-- Witness for C6 on the spec's concrete scenario with `limit = 1`. -/
theorem C6_witness :
    ([[Triplet.uniqueTo "x" 2, Triplet.insideVs "z" "B"]] :
      List (List Triplet)).length ≤ 1 ∧
    ([[Triplet.uniqueTo "x" 2, Triplet.insideVs "z" "B"]] :
      List (List Triplet)).Pairwise (fun a b => anchorIndex a ≤ anchorIndex b) ∧
    (∀ r ∈ ([[Triplet.uniqueTo "x" 2, Triplet.insideVs "z" "B"]] :
        List (List Triplet)),
      ∃ t, r.head? = some (Triplet.uniqueTo t (anchorIndex r)) ∧
        anchorIndex r = uniq specScenario t) :=
  C6_limit_and_order specScenario "A" 1 5
    [[Triplet.uniqueTo "x" 2, Triplet.insideVs "z" "B"]]
    (by decide) (by decide) (Nat.le_refl 1) rfl

/-- Counterexample to C6 as stated: with `limit = 0` the code still emits
one rule (the length check `len(rules) >= limit` runs only after the
append), so the returned list is longer than the limit. -/
theorem C6_limit_zero_cex :
    get_rules_per_label c6Corpus "A" 0 0 =
      Except.ok [[Triplet.uniqueTo "x" 1]] ∧
    ¬(([[Triplet.uniqueTo "x" 1]] : List (List Triplet)).length ≤ 0) :=
  ⟨rfl, by decide⟩

theorem diffs_len_zero_iff (c : Corpus) (label o : String) :
    (plusDiff c label o).length + (minusDiff c label o).length = 0 ↔
      sig_eq c label o := by
  constructor
  · intro h
    have h1 : plusDiff c label o = [] :=
      List.eq_nil_of_length_eq_zero (by omega)
    have h2 : minusDiff c label o = [] :=
      List.eq_nil_of_length_eq_zero (by omega)
    constructor
    · intro t ht
      by_contra hto
      have : t ∈ plusDiff c label o := mem_plusDiff.mpr ⟨ht, hto⟩
      rw [h1] at this
      cases this
    · intro t ht
      by_contra hto
      have : t ∈ minusDiff c label o := mem_minusDiff.mpr ⟨ht, hto⟩
      rw [h2] at this
      cases this
  · intro hse
    have h1 : plusDiff c label o = [] := by
      rw [plusDiff]
      apply List.filter_eq_nil_iff.mpr
      intro t ht
      simp only [decide_eq_true_eq, not_not]
      exact hse.1 t ht
    have h2 : minusDiff c label o = [] := by
      rw [minusDiff]
      apply List.filter_eq_nil_iff.mpr
      intro t ht
      simp only [decide_eq_true_eq, not_not]
      exact hse.2 t ht
    rw [h1, h2]
    rfl

theorem addDiscriminators_isOk (c : Corpus) (label : String)
    (used : List String) :
    ∀ others : List String, (∀ o ∈ others, ¬sig_eq c label o) →
      ∃ trips, addDiscriminators c label used others = Except.ok trips := by
  intro others
  induction others with
  | nil => intro _; exact ⟨[], rfl⟩
  | cons o rest ih =>
    intro hH
    have hass :
        ¬((plusDiff c label o).length + (minusDiff c label o).length = 0) := by
      intro h0
      exact hH o (List.mem_cons_self _ _) ((diffs_len_zero_iff c label o).mp h0)
    rcases ih (fun u hu => hH u (List.mem_cons_of_mem _ hu)) with ⟨trips2, hAD⟩
    rcases hp : ((plusDiff c label o).filter
        (fun t => decide (t ∉ used))).head? with _ | u
    · rcases hm : ((minusDiff c label o).filter
          (fun t => decide (t ∉ used))).head? with _ | u
      · refine ⟨[], ?_⟩
        rw [addDiscriminators, if_neg hass, hp, hm]
      · refine ⟨Triplet.outsideVs u o :: trips2, ?_⟩
        rw [addDiscriminators, if_neg hass, hp, hm, hAD]
    · refine ⟨Triplet.insideVs u o :: trips2, ?_⟩
      rw [addDiscriminators, if_neg hass, hp, hAD]

theorem mineTokens_isOk (c : Corpus) (label : String)
    (H : ∀ o ∈ c.labels, o ≠ label → ¬sig_eq c label o) (limit index : Nat) :
    ∀ (tks : List String) (st : MineState),
      ∃ st2, mineTokens c label limit index tks st = Except.ok st2 := by
  intro tks
  induction tks with
  | nil => intro st; exact ⟨st, rfl⟩
  | cons token rest ih =>
    intro st
    have hothers : ∀ o ∈ (tokenToLabels c token).filter (fun o => o != label),
        ¬sig_eq c label o := by
      intro o ho
      rcases List.mem_filter.mp ho with ⟨hoTL, hone⟩
      exact H o (List.mem_of_mem_filter hoTL) (by simpa using hone)
    rcases addDiscriminators_isOk c label st.used _ hothers with ⟨trips, hAD⟩
    by_cases hused : token ∈ st.used
    · rcases ih st with ⟨st2, h2⟩
      refine ⟨st2, ?_⟩
      rw [mineTokens, if_pos hused]
      exact h2
    · by_cases hshort : (Triplet.uniqueTo token index :: trips).length < index
      · rcases ih st with ⟨st2, h2⟩
        refine ⟨st2, ?_⟩
        rw [mineTokens, if_neg hused, hAD]
        dsimp only
        rw [if_pos hshort]
        exact h2
      · by_cases hlim :
            limit ≤ (st.rules ++ [Triplet.uniqueTo token index :: trips]).length
        · refine ⟨⟨st.rules ++ [Triplet.uniqueTo token index :: trips],
            st.used ++ (Triplet.uniqueTo token index :: trips).map tripletToken,
            true⟩, ?_⟩
          rw [mineTokens, if_neg hused, hAD]
          dsimp only
          rw [if_neg hshort, if_pos hlim]
        · rcases ih ⟨st.rules ++ [Triplet.uniqueTo token index :: trips],
            st.used ++ (Triplet.uniqueTo token index :: trips).map tripletToken,
            false⟩ with ⟨st2, h2⟩
          refine ⟨st2, ?_⟩
          rw [mineTokens, if_neg hused, hAD]
          dsimp only
          rw [if_neg hshort, if_neg hlim]
          exact h2

theorem mineIndices_isOk (c : Corpus) (label : String)
    (H : ∀ o ∈ c.labels, o ≠ label → ¬sig_eq c label o)
    (limit max_index : Nat) :
    ∀ (idxs : List Nat) (st : MineState),
      ∃ st2, mineIndices c label limit max_index idxs st = Except.ok st2 := by
  intro idxs
  induction idxs with
  | nil => intro st; exact ⟨st, rfl⟩
  | cons index rest ih =>
    intro st
    by_cases hdone : st.done = true
    · refine ⟨st, ?_⟩
      rw [mineIndices, if_pos hdone]
    · by_cases hmax : 0 < max_index ∧ max_index < index
      · refine ⟨st, ?_⟩
        rw [mineIndices, if_neg hdone, if_pos hmax]
      · rcases mineTokens_isOk c label H limit index (tokenGroup c label index) st
          with ⟨st3, h3⟩
        rcases ih st3 with ⟨st2, h2⟩
        refine ⟨st2, ?_⟩
        rw [mineIndices, if_neg hdone, if_neg hmax, h3]
        exact h2

/-- C10: when no two distinct labels of the corpus have equal signatures
(the state after duplicate filtering), the signature-difference assertion
of line 135 never fires and mining any label with a nonempty signature is
total; on a corpus containing two distinct labels with identical
signatures (`c10Corpus`) mining aborts with an assertion failure. -/
theorem C10_assert_totality :
    (∀ (c : Corpus) (label : String) (limit max_index : Nat),
      label ∈ c.labels → c.sig label ≠ [] →
      (∀ l ∈ c.labels, ∀ m ∈ c.labels, l ≠ m → ¬sig_eq c l m) →
      ∃ rules, get_rules_per_label c label limit max_index = Except.ok rules) ∧
    get_rules_per_label c10Corpus "a" 1 0 = Except.error () := by
  constructor
  · intro c label limit max_index hl hsig Hd
    have H : ∀ o ∈ c.labels, o ≠ label → ¬sig_eq c label o := by
      intro o hol hne
      exact Hd label hl o hol (fun he => hne he.symm)
    rcases mineIndices_isOk c label H limit max_index
        (List.range (c.labels.length + 1)) ⟨[], [], false⟩ with ⟨st, hmi⟩
    refine ⟨st.rules, ?_⟩
    rw [get_rules_per_label,
      if_neg (fun h0 => hsig (List.eq_nil_of_length_eq_zero h0)), hmi]
  · rfl

/-- Witness for C10 on the spec's concrete scenario, whose three
signatures are pairwise distinct. -/
theorem C10_witness :
    ∃ rules, get_rules_per_label specScenario "A" 1 5 = Except.ok rules :=
  C10_assert_totality.1 specScenario "A" 1 5 (by decide) (by decide) (by decide)

theorem rule_correct_of_no_breaks (changes : List String) :
    ∀ r : List Triplet, (∀ tr ∈ r, triplet_breaks changes tr = false) →
      rule_correct changes r = true := by
  intro r
  induction r with
  | nil => intro _; rfl
  | cons tr rest ih =>
    intro h
    rw [rule_correct, h tr (List.mem_cons_self _ _)]
    exact ih (fun u hu => h u (List.mem_cons_of_mem _ hu))

theorem triplet_breaks_false_of_present (changes : List String) (tr : Triplet)
    (hin : isOutside tr = false)
    (h : ∃ v ∈ changes, token_matches (tripletToken tr) v = true) :
    triplet_breaks changes tr = false := by
  rcases h with ⟨v, hv, hm⟩
  have hmem : v ∈ changes.filter (fun u => token_matches (tripletToken tr) u) :=
    List.mem_filter.mpr ⟨hv, hm⟩
  have hlen : ((changes.filter
      (fun u => token_matches (tripletToken tr) u)).length == 0) = false := by
    rw [beq_eq_false_iff_ne]
    intro h0
    rw [List.length_eq_zero] at h0
    rw [h0] at hmem
    cases hmem
  rw [triplet_breaks, hin, hlen]
  rfl

theorem triplet_breaks_false_of_absent (changes : List String) (tr : Triplet)
    (hout : isOutside tr = true)
    (h : ∀ v ∈ changes, token_matches (tripletToken tr) v = false) :
    triplet_breaks changes tr = false := by
  have hnil : changes.filter (fun u => token_matches (tripletToken tr) u) = [] := by
    apply List.filter_eq_nil_iff.mpr
    intro v hv
    rw [h v hv]
    exact Bool.false_ne_true
  rw [triplet_breaks, hout, hnil]
  rfl

/-- C4 (amended): for a label whose mined rule set is nonempty, provided
no `outside vs` token of the mined rules suffix-matches a token of the
label's own signature, evaluating the label's rules on its own signature
passes every triplet of every rule, and `if_label` answers `true` at
every threshold at most one.  (The proviso is forced by
`C4_suffix_collision_cex`: presence is suffix match, so an `outside vs`
token absent from the signature can still match a longer signature
token.) -/
theorem C4_self_consistency (c : Corpus) (label : String)
    (limit max_index : Nat) (rules : List (List Triplet))
    (hnd : c.labels.Nodup) (hl : label ∈ c.labels)
    (hok : get_rules_per_label c label limit max_index = Except.ok rules)
    (hne : rules ≠ [])
    (hout : ∀ r ∈ rules, ∀ tr ∈ r, isOutside tr = true →
      ∀ v ∈ c.sig label, token_matches (tripletToken tr) v = false)
    (threshold : ℚ) (hth : threshold ≤ 1) :
    (∀ r ∈ rules, rule_correct (c.sig label) r = true) ∧
    if_label rules (c.sig label) threshold = some true := by
  have hall : ∀ r ∈ rules, rule_correct (c.sig label) r = true := by
    intro r hr
    rcases get_rules_minedRule c label hnd hl limit max_index rules hok r hr with
      ⟨t, trips, heq, htl, _, _, hprov⟩
    apply rule_correct_of_no_breaks
    intro tr htr
    have htr0 := htr
    rw [heq] at htr0
    rcases List.mem_cons.mp htr0 with rfl | htr2
    · exact triplet_breaks_false_of_present _ _ rfl
        ⟨t, htl, token_matches_self t⟩
    · rcases hprov tr htr2 with ⟨u, o, rfl, hul, _⟩ | ⟨u, o, rfl, _, _⟩
      · exact triplet_breaks_false_of_present _ _ rfl
          ⟨u, hul, token_matches_self u⟩
      · exact triplet_breaks_false_of_absent _ _ rfl
          (fun v hv => hout r hr _ htr rfl v hv)
  refine ⟨hall, ?_⟩
  have hlen : rules.length ≠ 0 := by
    simpa [List.length_eq_zero] using hne
  rw [if_label, if_neg hlen]
  have hcnt : rules.countP (fun r => rule_correct (c.sig label) r) =
      rules.length :=
    List.countP_eq_length.mpr hall
  rw [hcnt]
  have hone : mkRat (rules.length : Int) rules.length = 1 := by
    rw [Rat.mkRat_eq_div]
    push_cast
    exact div_self (by exact_mod_cast hlen)
  rw [hone, decide_eq_true hth]

/-- Witness for C4 on the spec's concrete scenario: the single rule mined
for `A` has no `outside vs` triplet, and its evaluation on `A`'s own
signature passes at threshold one. -/
theorem C4_witness :
    (∀ r ∈ ([[Triplet.uniqueTo "x" 2, Triplet.insideVs "z" "B"]] :
        List (List Triplet)),
      rule_correct (specScenario.sig "A") r = true) ∧
    if_label [[Triplet.uniqueTo "x" 2, Triplet.insideVs "z" "B"]]
      (specScenario.sig "A") 1 = some true :=
  C4_self_consistency specScenario "A" 1 5
    [[Triplet.uniqueTo "x" 2, Triplet.insideVs "z" "B"]]
    (by decide) (by decide) rfl (by decide) (by decide) 1 le_rfl

/-- Counterexample to C4 as stated: on `c4Corpus` the rule mined for `a`
carries the `outside vs` token `b`, which is a suffix of `a`'s own
signature token `ab`; evaluating `a`'s rules on `a`'s own signature
breaks that triplet, and `if_label` answers `false` at threshold one. -/
theorem C4_suffix_collision_cex :
    get_rules_per_label c4Corpus "a" 1 0 =
      Except.ok [[Triplet.uniqueTo "ab" 2, Triplet.outsideVs "b" "b"]] ∧
    if_label [[Triplet.uniqueTo "ab" 2, Triplet.outsideVs "b" "b"]]
      (c4Corpus.sig "a") 1 = some false :=
  ⟨rfl, rfl⟩

end SoftDisc
